import Mathlib

/-!
Verification development for the Avro row-input format of a columnar
database (`src/Processors/Formats/Impl/AvroRowInputFormat.h`).

The header file contains the full inline body of
`AvroDeserializer::Action::execute`; it is embedded here faithfully as
`Avro.Action.execute`.  The bodies of `AvroDeserializer::AvroDeserializer`,
`createAction`, `createSkipFn` and
`AvroConfluentRowInputFormat::getOrCreateDeserializer` are not part of the
given sources (only their declarations are), so those parts are modelled
from the specification; each such definition says so in its doc comment.

Modelling conventions:
* a decoder cursor is a list of abstract tokens (`Decoder := List Nat`);
  `decodeUnionIndex` consumes one token, as the external Avro decoder does;
* a column is a list of abstract values; the header's `MutableColumns` is a
  list of columns; `RowReadExtension.read_columns` is a list of booleans;
* C++ reference mutation plus exceptions is modelled by state passing: an
  execution step returns `Option AvroError × RowState`, where `some e`
  corresponds to a thrown exception and the returned state is the state at
  the moment of the throw (mutations made before the throw persist).
-/

namespace Avro

/-- Error codes, mirroring `DB::ErrorCodes`.  `INCORRECT_DATA` is the code
named by the header; the others stand for the distinct compile-time error
kinds of the specification's §7 table. -/
inductive ErrorCode where
  | INCORRECT_DATA
  | TYPE_MISMATCH
  | MISSING_FIELD
  | STREAM_ERROR
  deriving DecidableEq, Repr

/-- A thrown `DB::Exception`: message text plus error code. -/
structure AvroError where
  message : String
  code : ErrorCode
  deriving DecidableEq, Repr

/-- Abstract decoded values stored in columns. -/
abbrev Value := Nat

/-- One target column (`IColumn`), as the list of values appended to it. -/
abbrev Column := List Value

/-- `MutableColumns`: the ordered target columns of one block. -/
abbrev MutableColumns := List Column

/-- The decoder cursor (`avro::Decoder`): the remaining stream of encoded
tokens.  Decode primitives consume tokens from the front. -/
abbrev Decoder := List Nat

/-- `decoder.decodeUnionIndex()`: reads one union discriminant from the
stream, advancing the cursor; fails on a truncated stream. -/
def decodeUnionIndex : Decoder → Except AvroError (Nat × Decoder)
  | [] => .error ⟨"EOF reached", .STREAM_ERROR⟩
  | i :: rest => .ok (i, rest)

/-- `DeserializeFn = std::function<void(IColumn & column, avro::Decoder &)>`:
acts on one column and the cursor, possibly throwing. -/
abbrev DeserializeFn := Column → Decoder → Except AvroError (Column × Decoder)

/-- `SkipFn = std::function<void(avro::Decoder &)>`: consumes one encoded
value from the cursor, possibly throwing. -/
abbrev SkipFn := Decoder → Except AvroError Decoder

/-- The state `Action::execute` acts on by reference: the target columns,
the decoder cursor, and `RowReadExtension::read_columns`. -/
structure RowState where
  columns : MutableColumns
  decoder : Decoder
  read_columns : List Bool

/-- `AvroDeserializer::Action`: the closed tagged variant
`{Noop, Deserialize, Skip, Record, Union}` of the header, with the fields
each variant uses. -/
inductive Action where
  | noop : Action
  | deserialize (target_column_idx : Nat) (deserialize_fn : DeserializeFn) : Action
  | skip (skip_fn : SkipFn) : Action
  | record (actions : List Action) : Action
  | union (actions : List Action) : Action

mutual

/-- `Action::execute(columns, decoder, ext)`, lines 73-99 of the header:
* `Noop`: nothing;
* `Deserialize`: `deserialize_fn(*columns[target_column_idx], decoder)`,
  then `ext.read_columns[target_column_idx] = true`;
* `Skip`: `skip_fn(decoder)`;
* `Record`: execute every child action in order;
* `Union`: `decodeUnionIndex`, throw `INCORRECT_DATA` when
  `index >= actions.size()`, otherwise execute `actions[index]`. -/
def Action.execute (a : Action) (s : RowState) : Option AvroError × RowState :=
  match a with
  | .noop => (none, s)
  | .deserialize target_column_idx fn =>
      match fn (s.columns.getD target_column_idx []) s.decoder with
      | .ok (col, dec) =>
          (none, { columns := s.columns.set target_column_idx col,
                   decoder := dec,
                   read_columns := s.read_columns.set target_column_idx true })
      | .error e => (some e, s)
  | .skip fn =>
      match fn s.decoder with
      | .ok dec => (none, { s with decoder := dec })
      | .error e => (some e, s)
  | .record acts => Action.executeList acts s
  | .union acts =>
      match decodeUnionIndex s.decoder with
      | .error e => (some e, s)
      | .ok (index, dec) =>
          if h : acts.length ≤ index then
            (some ⟨"Union index out of boundary", .INCORRECT_DATA⟩,
             { s with decoder := dec })
          else
            (acts.get ⟨index, Nat.lt_of_not_le h⟩).execute { s with decoder := dec }
termination_by sizeOf a
decreasing_by
  all_goals simp_wf
  all_goals first
    | omega
    | (have h2 := List.sizeOf_lt_of_mem (List.getElem_mem (l := acts) (Nat.lt_of_not_le h))
       omega)

/-- The `Record` loop of `Action::execute`: children run left to right; a
throw in a child aborts the remaining children (C++ exception propagation). -/
def Action.executeList (as : List Action) (s : RowState) :
    Option AvroError × RowState :=
  match as with
  | [] => (none, s)
  | a :: rest =>
      match a.execute s with
      | (none, s') => Action.executeList rest s'
      | (some e, s') => (some e, s')
termination_by sizeOf as
decreasing_by
  all_goals simp_wf <;> omega

end

mutual

/-- Whether an action tree contains a `Deserialize` node anywhere. -/
def Action.hasDeserialize : Action → Bool
  | .noop => false
  | .deserialize _ _ => true
  | .skip _ => false
  | .record acts => Action.listHasDeserialize acts
  | .union acts => Action.listHasDeserialize acts

/-- `hasDeserialize` over a list of child actions. -/
def Action.listHasDeserialize : List Action → Bool
  | [] => false
  | a :: rest => a.hasDeserialize || Action.listHasDeserialize rest

end

/-- A skip operation consuming one token from the stream: a concrete
instance of a `SkipFn`, used to instantiate the universally quantified
theorems below on closed inputs. -/
def skipOneToken : SkipFn := fun d =>
  match d with
  | [] => .error ⟨"EOF reached", .STREAM_ERROR⟩
  | _ :: rest => .ok rest

/-- A decode operation consuming one token and appending it to the column:
a concrete instance of a `DeserializeFn`. -/
def readOneToken : DeserializeFn := fun col d =>
  match d with
  | [] => .error ⟨"EOF reached", .STREAM_ERROR⟩
  | v :: rest => .ok (col ++ [v], rest)

/-- A decode operation that always throws: a concrete instance of a
failing `DeserializeFn`. -/
def failingDecode : DeserializeFn :=
  fun _ _ => .error ⟨"bad data", .INCORRECT_DATA⟩

end Avro

namespace Avro

/-- Helper: if no action in a list contains a `Deserialize`, then no member
of the list does. -/
theorem hasDeserialize_false_of_mem {as : List Action}
    (h : Action.listHasDeserialize as = false) {a : Action} (ha : a ∈ as) :
    a.hasDeserialize = false := by
  induction as with
  | nil => cases ha
  | cons b rest ih =>
      rw [Action.listHasDeserialize] at h
      rcases List.mem_cons.mp ha with rfl | hmem
      · exact (Bool.or_eq_false_iff.mp h).1
      · exact ih (Bool.or_eq_false_iff.mp h).2 hmem

/-- C1: executing a `Union` action whose decoded discriminant index is `>=`
the number of branch actions throws a MalformedData (`INCORRECT_DATA`)
exception with message "Union index out of boundary"; no branch executes
and no column or written flag changes (only the discriminant token is
consumed from the cursor). -/
theorem union_bad_discriminant_fails_incorrect_data
    (acts : List Action) (s : RowState) (index : Nat) (dec : Decoder)
    (hdec : decodeUnionIndex s.decoder = .ok (index, dec))
    (hge : acts.length ≤ index) :
    (Action.union acts).execute s =
      (some ⟨"Union index out of boundary", .INCORRECT_DATA⟩,
       { s with decoder := dec }) := by
  rw [Action.execute, hdec]
  simp [hge]

/-- Witness for C1: a union with no branches, discriminant 3. -/
theorem union_bad_discriminant_fails_incorrect_data_witness :
    (Action.union []).execute ⟨[[]], [3], [false]⟩ =
      (some ⟨"Union index out of boundary", .INCORRECT_DATA⟩,
       ⟨[[]], [], [false]⟩) :=
  union_bad_discriminant_fails_incorrect_data [] ⟨[[]], [3], [false]⟩ 3 [] rfl
    (by decide)

/-- C5: executing a `Deserialize` action whose decode operation succeeds
writes the decoded column content at the target index, advances the cursor
to the decode operation's output, and sets the written flag of the target
column to `true`. -/
theorem deserialize_writes_column_and_flag
    (i : Nat) (fn : DeserializeFn) (s : RowState) (col : Column) (dec : Decoder)
    (hok : fn (s.columns.getD i []) s.decoder = .ok (col, dec))
    (hcol : i < s.columns.length) (hflag : i < s.read_columns.length) :
    (Action.deserialize i fn).execute s =
        (none, ⟨s.columns.set i col, dec, s.read_columns.set i true⟩)
      ∧ ((Action.deserialize i fn).execute s).2.columns[i]? = some col
      ∧ ((Action.deserialize i fn).execute s).2.read_columns[i]? = some true
      ∧ ((Action.deserialize i fn).execute s).2.decoder = dec := by
  have hexec : (Action.deserialize i fn).execute s =
      (none, ⟨s.columns.set i col, dec, s.read_columns.set i true⟩) := by
    rw [Action.execute, hok]
  refine ⟨hexec, ?_, ?_, ?_⟩
  · rw [hexec]
    exact List.getElem?_set_self hcol
  · rw [hexec]
    exact List.getElem?_set_self hflag
  · rw [hexec]

/-- Witness for C5: decode one token into column 0. -/
theorem deserialize_writes_column_and_flag_witness :
    (Action.deserialize 0 readOneToken).execute ⟨[[]], [7], [false]⟩ =
        (none, ⟨[[7]], [], [true]⟩)
      ∧ ((Action.deserialize 0 readOneToken).execute
          ⟨[[]], [7], [false]⟩).2.columns[0]? = some [7]
      ∧ ((Action.deserialize 0 readOneToken).execute
          ⟨[[]], [7], [false]⟩).2.read_columns[0]? = some true
      ∧ ((Action.deserialize 0 readOneToken).execute
          ⟨[[]], [7], [false]⟩).2.decoder = [] :=
  deserialize_writes_column_and_flag 0 readOneToken ⟨[[]], [7], [false]⟩ [7] []
    rfl (by decide) (by decide)

/-- C6: executing a `Record` action is exactly the left fold of its child
actions in their stored (schema-declared) order: each child executes once,
in order, with an exception in a child propagating past the remaining
children. -/
theorem record_executes_children_in_order (acts : List Action) (s : RowState) :
    (Action.record acts).execute s =
      acts.foldl
        (fun r a =>
          match r with
          | (none, st) => a.execute st
          | (some e, st) => (some e, st))
        (none, s) := by
  rw [Action.execute]
  induction acts generalizing s with
  | nil => rw [Action.executeList]; rfl
  | cons a rest ih =>
      rw [Action.executeList]
      cases hexec : a.execute s with
      | mk oe s' =>
          cases oe with
          | none =>
              simp only [List.foldl_cons, hexec]
              exact ih s'
          | some e =>
              simp only [List.foldl_cons, hexec]
              clear ih hexec
              induction rest with
              | nil => rfl
              | cons b rs ihr => rw [List.foldl_cons]; exact ihr

/-- C7: a `Noop` action changes nothing at all; a `Skip` action leaves every
column and every written flag unchanged, and on success only advances the
cursor to the skip operation's output (one encoded value consumed, nothing
stored). -/
theorem skip_noop_leave_columns_and_flags
    (fn : SkipFn) (s : RowState) :
    Action.noop.execute s = (none, s)
    ∧ ((Action.skip fn).execute s).2.columns = s.columns
    ∧ ((Action.skip fn).execute s).2.read_columns = s.read_columns
    ∧ (∀ dec, fn s.decoder = .ok dec →
        (Action.skip fn).execute s = (none, { s with decoder := dec })) := by
  refine ⟨by rw [Action.execute], ?_, ?_, ?_⟩
  · rw [Action.execute]
    cases fn s.decoder <;> rfl
  · rw [Action.execute]
    cases fn s.decoder <;> rfl
  · intro dec hdec
    rw [Action.execute, hdec]

/-- Witness for C7: skipping one token of a two-token stream. -/
theorem skip_noop_leave_columns_and_flags_witness :
    Action.noop.execute ⟨[[1]], [5, 6], [true]⟩ = (none, ⟨[[1]], [5, 6], [true]⟩)
    ∧ ((Action.skip skipOneToken).execute ⟨[[1]], [5, 6], [true]⟩).2.columns = [[1]]
    ∧ ((Action.skip skipOneToken).execute
        ⟨[[1]], [5, 6], [true]⟩).2.read_columns = [true]
    ∧ (Action.skip skipOneToken).execute ⟨[[1]], [5, 6], [true]⟩ =
        (none, ⟨[[1]], [6], [true]⟩) := by
  obtain ⟨h1, h2, h3, h4⟩ :=
    skip_noop_leave_columns_and_flags skipOneToken ⟨[[1]], [5, 6], [true]⟩
  exact ⟨h1, h2, h3, h4 [6] rfl⟩

/-- C10: if the decode operation of a `Deserialize` action throws, the
exception propagates, and the row state — in particular the written flag of
the target column — is exactly as it was before the action ran. -/
theorem deserialize_error_leaves_flag
    (i : Nat) (fn : DeserializeFn) (s : RowState) (e : AvroError)
    (herr : fn (s.columns.getD i []) s.decoder = .error e) :
    (Action.deserialize i fn).execute s = (some e, s)
    ∧ ((Action.deserialize i fn).execute s).2.read_columns = s.read_columns := by
  have hexec : (Action.deserialize i fn).execute s = (some e, s) := by
    rw [Action.execute, herr]
  exact ⟨hexec, by rw [hexec]⟩

/-- Witness for C10: a decode operation that always throws leaves the
written bitmap `[false]` untouched. -/
theorem deserialize_error_leaves_flag_witness :
    (Action.deserialize 0 failingDecode).execute ⟨[[]], [7], [false]⟩ =
        (some ⟨"bad data", .INCORRECT_DATA⟩, ⟨[[]], [7], [false]⟩)
    ∧ ((Action.deserialize 0 failingDecode).execute
        ⟨[[]], [7], [false]⟩).2.read_columns = [false] :=
  deserialize_error_leaves_flag 0 failingDecode ⟨[[]], [7], [false]⟩
    ⟨"bad data", .INCORRECT_DATA⟩ rfl

end Avro

namespace Avro

/-- C9: executing any action tree never clears a written flag — any index
whose `read_columns` entry is `true` before execution is still `true`
afterwards, whether execution succeeds or throws — and an action tree that
contains no `Deserialize` node leaves the whole written bitmap unchanged
(only `Deserialize` modifies flags). -/
theorem execute_flags_monotone (a : Action) (s : RowState) :
    (∀ i : Nat, s.read_columns[i]? = some true →
        ((a.execute s).2).read_columns[i]? = some true)
    ∧ (a.hasDeserialize = false →
        ((a.execute s).2).read_columns = s.read_columns) := by
  refine Action.execute.induct
    (fun a s =>
      (∀ i : Nat, s.read_columns[i]? = some true →
          ((a.execute s).2).read_columns[i]? = some true)
      ∧ (a.hasDeserialize = false →
          ((a.execute s).2).read_columns = s.read_columns))
    (fun as s =>
      (∀ i : Nat, s.read_columns[i]? = some true →
          ((Action.executeList as s).2).read_columns[i]? = some true)
      ∧ (Action.listHasDeserialize as = false →
          ((Action.executeList as s).2).read_columns = s.read_columns))
    ?_ ?_ ?_ ?_ ?_ ?_ ?_ ?_ ?_ ?_ ?_ ?_ a s
  · -- Noop
    intro s
    rw [Action.execute]
    exact ⟨fun i hi => hi, fun _ => rfl⟩
  · -- Deserialize, decode succeeds
    intro s idx fn col dec hok
    have hx : (Action.deserialize idx fn).execute s =
        (none, ⟨s.columns.set idx col, dec, s.read_columns.set idx true⟩) := by
      rw [Action.execute, hok]
    constructor
    · intro i hi
      rw [hx]
      have hlen : i < s.read_columns.length := by
        by_contra hlt
        rw [List.getElem?_eq_none (Nat.le_of_not_lt hlt)] at hi
        cases hi
      by_cases hij : idx = i
      · subst hij
        exact List.getElem?_set_self hlen
      · rw [List.getElem?_set_ne hij]
        exact hi
    · intro hfalse
      simp [Action.hasDeserialize] at hfalse
  · -- Deserialize, decode throws
    intro s idx fn e herr
    have hx : (Action.deserialize idx fn).execute s = (some e, s) := by
      rw [Action.execute, herr]
    rw [hx]
    exact ⟨fun i hi => hi, fun _ => rfl⟩
  · -- Skip, skip succeeds
    intro s fn dec hok
    have hx : (Action.skip fn).execute s = (none, { s with decoder := dec }) := by
      rw [Action.execute, hok]
    rw [hx]
    exact ⟨fun i hi => hi, fun _ => rfl⟩
  · -- Skip, skip throws
    intro s fn e herr
    have hx : (Action.skip fn).execute s = (some e, s) := by
      rw [Action.execute, herr]
    rw [hx]
    exact ⟨fun i hi => hi, fun _ => rfl⟩
  · -- Record
    intro s acts ih
    have hx : (Action.record acts).execute s = Action.executeList acts s := by
      rw [Action.execute]
    rw [hx]
    refine ⟨ih.1, fun hfalse => ih.2 ?_⟩
    simpa [Action.hasDeserialize] using hfalse
  · -- Union, discriminant read fails
    intro s acts e herr
    have hx : (Action.union acts).execute s = (some e, s) := by
      rw [Action.execute, herr]
    rw [hx]
    exact ⟨fun i hi => hi, fun _ => rfl⟩
  · -- Union, discriminant out of range
    intro s acts index dec hdec hge
    have hx : (Action.union acts).execute s =
        (some ⟨"Union index out of boundary", .INCORRECT_DATA⟩,
         { s with decoder := dec }) := by
      rw [Action.execute, hdec]
      simp [hge]
    rw [hx]
    exact ⟨fun i hi => hi, fun _ => rfl⟩
  · -- Union, dispatch to a branch
    intro s acts index dec hdec h ih
    have hx : (Action.union acts).execute s =
        (acts.get ⟨index, Nat.lt_of_not_le h⟩).execute { s with decoder := dec } := by
      rw [Action.execute, hdec]
      simp [h]
    rw [hx]
    constructor
    · intro i hi
      exact ih.1 i hi
    · intro hfalse
      refine ih.2 ?_
      have hmem : acts.get ⟨index, Nat.lt_of_not_le h⟩ ∈ acts :=
        List.get_mem acts index (Nat.lt_of_not_le h)
      refine hasDeserialize_false_of_mem ?_ hmem
      simpa [Action.hasDeserialize] using hfalse
  · -- executeList, nil
    intro s
    rw [Action.executeList]
    exact ⟨fun i hi => hi, fun _ => rfl⟩
  · -- executeList, cons, head succeeds
    intro s a rest s' hexec ih ihrest
    have hx : Action.executeList (a :: rest) s = Action.executeList rest s' := by
      rw [Action.executeList, hexec]
    rw [hx]
    constructor
    · intro i hi
      have h1 := ih.1 i hi
      rw [hexec] at h1
      exact ihrest.1 i h1
    · intro hfalse
      rw [Action.listHasDeserialize] at hfalse
      have h1 := ih.2 (Bool.or_eq_false_iff.mp hfalse).1
      rw [hexec] at h1
      rw [ihrest.2 (Bool.or_eq_false_iff.mp hfalse).2, h1]
  · -- executeList, cons, head throws
    intro s a rest e s' hexec ih
    have hx : Action.executeList (a :: rest) s = (some e, s') := by
      rw [Action.executeList, hexec]
    rw [hx]
    constructor
    · intro i hi
      have h1 := ih.1 i hi
      rw [hexec] at h1
      exact h1
    · intro hfalse
      rw [Action.listHasDeserialize] at hfalse
      have h1 := ih.2 (Bool.or_eq_false_iff.mp hfalse).1
      rw [hexec] at h1
      exact h1

/-- Witness for C9: a skip inside a record keeps the flag at index 0 set
and leaves the bitmap unchanged. -/
theorem execute_flags_monotone_witness :
    (((Action.record [.skip skipOneToken]).execute
        ⟨[[1]], [5], [true]⟩).2).read_columns[0]? = some true
    ∧ (((Action.record [.skip skipOneToken]).execute
        ⟨[[1]], [5], [true]⟩).2).read_columns = [true] := by
  constructor
  · exact (execute_flags_monotone (Action.record [.skip skipOneToken])
      ⟨[[1]], [5], [true]⟩).1 0 rfl
  · exact (execute_flags_monotone (Action.record [.skip skipOneToken])
      ⟨[[1]], [5], [true]⟩).2
      (by simp [Action.hasDeserialize, Action.listHasDeserialize])

end Avro

namespace Avro

/-- Target column types; a small representative set of the engine's data
types, enough to express the assignability check of the Plan Compiler. -/
inductive DataType where
  | int32
  | int64
  | float64
  | str
  | arrayT (elem : DataType)
  deriving DecidableEq, Repr

/-- The primitive kinds of Avro schema nodes. -/
inductive AvroKind where
  | aNull
  | aBool
  | aInt
  | aLong
  | aFloat
  | aDouble
  | aBytes
  | aString
  deriving DecidableEq, Repr

/-- An Avro schema graph node (`avro::NodePtr`): primitives, records with
ordered named fields, unions with ordered branches, arrays, maps, the named
types enum and fixed, and symbolic back-references to named types. -/
inductive SchemaNode where
  | primitive (kind : AvroKind)
  | record (name : String) (fields : List (String × SchemaNode))
  | union (branches : List SchemaNode)
  | array (elem : SchemaNode)
  | map (value : SchemaNode)
  | enum (name : String) (symbols : List String)
  | fixed (name : String) (size : Nat)
  | symbolic (name : String)
  deriving Repr

/-- One entry of the target column set (one column of the `Block` header):
its name and declared type. -/
structure ColumnSpec where
  name : String
  dataType : DataType
  deriving DecidableEq, Repr

/-- The path-composition rule for nested field names: a field name is
joined to its parent path with a `.` separator. -/
def concatPath (path fname : String) : String :=
  if path = "" then fname else path ++ "." ++ fname

/-- Modelled from the spec: the assignability check of
`createDeserializeFn` (§4.1: "select a decode operation whose output type
is assignable to the target column's declared type") as a relation between
a schema node and a target column type.  The body of `createDeserializeFn`
is not in the given sources. -/
def compatible : SchemaNode → DataType → Bool
  | .primitive .aInt, .int32 => true
  | .primitive .aInt, .int64 => true
  | .primitive .aLong, .int64 => true
  | .primitive .aFloat, .float64 => true
  | .primitive .aDouble, .float64 => true
  | .primitive .aString, .str => true
  | .primitive .aBytes, .str => true
  | .primitive .aBool, .int32 => true
  | .enum _ _, .str => true
  | .fixed _ _, .str => true
  | .array e, .arrayT t => compatible e t
  | _, _ => false

/-- Modelled from the spec: `createDeserializeFn(root_node, target_type)`
(declaration only in the sources): yields a decode operation when the
schema type is assignable to the target type, and fails with a
TypeMismatch error otherwise. -/
def createDeserializeFn (node : SchemaNode) (t : DataType) :
    Except AvroError DeserializeFn :=
  if compatible node t then .ok readOneToken
  else .error ⟨"type mismatch", .TYPE_MISMATCH⟩

/-- Modelled from the spec (§4.1): compiling one non-record, non-union
schema node at a given field path against the target column set: search the
target columns for a column named exactly the path; on a match compile a
Deserialize action bound to that column and mark it found; with no match
compile a Skip action when `allow_missing_fields` holds and fail otherwise. -/
def createLeafAction (header : List ColumnSpec) (amf : Bool)
    (node : SchemaNode) (path : String) (found : List Bool) :
    Except AvroError (Action × List Bool) :=
  match header.findIdx? (fun c => c.name == path) with
  | some idx =>
      match createDeserializeFn node (header.getD idx ⟨"", .int32⟩).dataType with
      | .ok fn => .ok (Action.deserialize idx fn, found.set idx true)
      | .error e => .error e
  | none =>
      if amf then .ok (Action.skip skipOneToken, found)
      else .error ⟨"field " ++ path ++ " not found", .MISSING_FIELD⟩

mutual

/-- Modelled from the spec: `AvroDeserializer::createAction` (§4.1,
declaration only in the sources): recursively walk the schema graph,
carrying the current field path and the column-found bitmap; a record node
compiles each field in order under the extended path; a union node compiles
each branch under the same path; every other node is compiled by
`createLeafAction`. -/
def createAction (header : List ColumnSpec) (amf : Bool) (node : SchemaNode)
    (path : String) (found : List Bool) :
    Except AvroError (Action × List Bool) :=
  match node with
  | .record _ fields =>
      match createActionFields header amf fields path found with
      | .ok (acts, found1) => .ok (Action.record acts, found1)
      | .error e => .error e
  | .union branches =>
      match createActionBranches header amf branches path found with
      | .ok (acts, found1) => .ok (Action.union acts, found1)
      | .error e => .error e
  | .primitive k => createLeafAction header amf (.primitive k) path found
  | .array e => createLeafAction header amf (.array e) path found
  | .map v => createLeafAction header amf (.map v) path found
  | .enum n ss => createLeafAction header amf (.enum n ss) path found
  | .fixed n sz => createLeafAction header amf (.fixed n sz) path found
  | .symbolic n => createLeafAction header amf (.symbolic n) path found
termination_by sizeOf node
decreasing_by all_goals simp_wf <;> omega

/-- The record-field loop of `createAction`: compile each (name, child)
field in declared order, threading the column-found bitmap. -/
def createActionFields (header : List ColumnSpec) (amf : Bool)
    (fields : List (String × SchemaNode)) (path : String) (found : List Bool) :
    Except AvroError (List Action × List Bool) :=
  match fields with
  | [] => .ok ([], found)
  | (fname, fnode) :: rest =>
      match createAction header amf fnode (concatPath path fname) found with
      | .ok (a, found1) =>
          match createActionFields header amf rest path found1 with
          | .ok (as, found2) => .ok (a :: as, found2)
          | .error e => .error e
      | .error e => .error e
termination_by sizeOf fields
decreasing_by all_goals simp_wf <;> omega

/-- The union-branch loop of `createAction`: compile each branch in order
under the parent's path, threading the column-found bitmap. -/
def createActionBranches (header : List ColumnSpec) (amf : Bool)
    (branches : List SchemaNode) (path : String) (found : List Bool) :
    Except AvroError (List Action × List Bool) :=
  match branches with
  | [] => .ok ([], found)
  | b :: rest =>
      match createAction header amf b path found with
      | .ok (a, found1) =>
          match createActionBranches header amf rest path found1 with
          | .ok (as, found2) => .ok (a :: as, found2)
          | .error e => .error e
      | .error e => .error e
termination_by sizeOf branches
decreasing_by all_goals simp_wf <;> omega

end

mutual

/-- The field paths of a schema graph at which `createAction` binds target
columns: every non-record, non-union node contributes its own path; records
extend the path per field; union branches share the parent path. -/
def leafPaths (node : SchemaNode) (path : String) : List String :=
  match node with
  | .record _ fields => leafPathsFields fields path
  | .union branches => leafPathsBranches branches path
  | _ => [path]
termination_by sizeOf node
decreasing_by all_goals simp_wf <;> omega

/-- `leafPaths` over the fields of a record node. -/
def leafPathsFields (fields : List (String × SchemaNode)) (path : String) :
    List String :=
  match fields with
  | [] => []
  | (fname, fnode) :: rest =>
      leafPaths fnode (concatPath path fname) ++ leafPathsFields rest path
termination_by sizeOf fields
decreasing_by all_goals simp_wf <;> omega

/-- `leafPaths` over the branches of a union node. -/
def leafPathsBranches (branches : List SchemaNode) (path : String) :
    List String :=
  match branches with
  | [] => []
  | b :: rest => leafPaths b path ++ leafPathsBranches rest path
termination_by sizeOf branches
decreasing_by all_goals simp_wf <;> omega

end

/-- The compiled Plan (`AvroDeserializer`): the column-found bitmap over
the target column set and the root row action. -/
structure AvroDeserializer where
  column_found : List Bool
  row_action : Action

/-- Modelled from the spec: the `AvroDeserializer` constructor (declaration
only in the sources): the schema root must be a record; the bitmap starts
all-false and the root action is compiled by `createAction` with the empty
path; when `allow_missing_fields` is false and some target column was not
found in the schema, construction fails before any row is read. -/
def AvroDeserializer.make (header : List ColumnSpec) (schema : SchemaNode)
    (allow_missing_fields : Bool) : Except AvroError AvroDeserializer :=
  match schema with
  | .record nm fields =>
      match createAction header allow_missing_fields (.record nm fields) ""
          (List.replicate header.length false) with
      | .ok (action, found) =>
          if !allow_missing_fields && found.contains false then
            .error ⟨"Field not found in Avro schema", .MISSING_FIELD⟩
          else
            .ok ⟨found, action⟩
      | .error e => .error e
  | _ => .error ⟨"Root schema in Avro format is not a record", .TYPE_MISMATCH⟩

end Avro

namespace Avro

/-- Helper: a valid index reads back as `some` of the `getD` value. -/
theorem getElem?_eq_some_getD {α : Type} (l : List α) (i : Nat) (d : α)
    (h : i < l.length) : l[i]? = some (l.getD i d) := by
  rw [List.getD_eq_getElem?_getD, List.getElem?_eq_getElem h]
  rfl

/-- Helper: `getD` on a `replicate false` bitmap is always `false`. -/
theorem getD_replicate_false (n i : Nat) :
    (List.replicate n false).getD i false = false := by
  rw [List.getD_eq_getElem?_getD, List.getElem?_replicate]
  split <;> rfl

/-- The relation ''`found1` is `found` with additionally every column whose
name occurs in `paths` marked'': the shape in which one walk step updates
the column-found bitmap. -/
def FoundChar (header : List ColumnSpec) (found found1 : List Bool)
    (paths : List String) : Prop :=
  found1.length = header.length ∧
  ∀ i, (hi : i < header.length) →
    found1[i]? = some (found.getD i false || decide (header[i].name ∈ paths))

/-- Helper: `FoundChar` for an empty path set is the identity update. -/
theorem FoundChar.of_refl {header : List ColumnSpec} {found : List Bool}
    (hlen : found.length = header.length) :
    FoundChar header found found [] := by
  refine ⟨hlen, fun i hi => ?_⟩
  have h0 : decide (header[i].name ∈ ([] : List String)) = false := by simp
  rw [h0, Bool.or_false]
  exact getElem?_eq_some_getD found i false (by omega)

/-- Helper: `FoundChar` composes along appended path sets. -/
theorem FoundChar.append {header : List ColumnSpec}
    {found found1 found2 : List Bool} {p1 p2 : List String}
    (h1 : FoundChar header found found1 p1)
    (h2 : FoundChar header found1 found2 p2) :
    FoundChar header found found2 (p1 ++ p2) := by
  refine ⟨h2.1, fun i hi => ?_⟩
  have e1 := h1.2 i hi
  have e2 := h2.2 i hi
  have hgd : found1.getD i false =
      (found.getD i false || decide (header[i].name ∈ p1)) := by
    rw [List.getD_eq_getElem?_getD, e1]
    rfl
  rw [e2, hgd]
  congr 1
  simp [List.mem_append, Bool.or_assoc]

/-- How `createLeafAction` updates the column-found bitmap: exactly the
column whose name equals the field path (if any) gets marked. -/
theorem createLeafAction_found_char
    {header : List ColumnSpec} {amf : Bool} {node : SchemaNode} {path : String}
    {found : List Bool} {a : Action} {found1 : List Bool}
    (hok : createLeafAction header amf node path found = .ok (a, found1))
    (hnodup : (header.map ColumnSpec.name).Nodup)
    (hlen : found.length = header.length) :
    FoundChar header found found1 [path] := by
  unfold createLeafAction at hok
  cases hfind : header.findIdx? (fun c => c.name == path) with
  | none =>
      rw [hfind] at hok
      cases amf with
      | false => simp at hok
      | true =>
          simp only [if_true, ite_true, Except.ok.injEq, Prod.mk.injEq] at hok
          obtain ⟨-, hfound⟩ := hok
          subst hfound
          refine ⟨hlen, fun i hi => ?_⟩
          have hmem : header[i] ∈ header := List.getElem_mem hi
          have hne := List.findIdx?_eq_none_iff.mp hfind _ hmem
          simp only [beq_eq_false_iff_ne, ne_eq] at hne
          have h0 : decide (header[i].name ∈ [path]) = false := by
            simp [hne]
          rw [h0, Bool.or_false]
          exact getElem?_eq_some_getD found i false (by omega)
  | some idx =>
      rw [hfind] at hok
      obtain ⟨hidxlt, hfidx⟩ := List.findIdx?_eq_some_iff_findIdx_eq.mp hfind
      have hname : header[idx].name = path := by
        have hw : header.findIdx (fun c => c.name == path) < header.length := by
          rw [hfidx]; exact hidxlt
        have hp := @List.findIdx_getElem _ (fun c => c.name == path) header hw
        simp only [hfidx] at hp
        simpa using hp
      by_cases hcomp :
          compatible node (header.getD idx ⟨"", .int32⟩).dataType = true
      · simp only [createDeserializeFn, hcomp, ite_true, Except.ok.injEq,
          Prod.mk.injEq] at hok
        obtain ⟨-, hfound⟩ := hok
        subst hfound
        refine ⟨by rw [List.length_set]; exact hlen, fun i hi => ?_⟩
        by_cases hii : i = idx
        · subst hii
          rw [List.getElem?_set_self (by omega)]
          have h1 : decide (header[i].name ∈ [path]) = true := by
            simp [hname]
          rw [h1, Bool.or_true]
        · rw [List.getElem?_set_ne (fun h => hii h.symm)]
          have hne : ¬ header[i].name = path := by
            intro heq
            refine hii ?_
            have hilt : i < (header.map ColumnSpec.name).length := by
              simpa using hi
            have hilt2 : idx < (header.map ColumnSpec.name).length := by
              simpa using hidxlt
            have h1 : (header.map ColumnSpec.name)[i] =
                (header.map ColumnSpec.name)[idx] := by
              rw [List.getElem_map, List.getElem_map, heq, hname]
            exact hnodup.getElem_inj_iff.mp h1
          have h0 : decide (header[i].name ∈ [path]) = false := by
            simp [hne]
          rw [h0, Bool.or_false]
          exact getElem?_eq_some_getD found i false (by omega)
      · simp only [createDeserializeFn, hcomp, ite_false, if_false] at hok
        simp at hok

end Avro

namespace Avro

/-- The central bitmap characterization of the compiled walk: a successful
`createAction` run updates the column-found bitmap by exactly the set of
columns whose names occur among the walked field paths. -/
theorem createAction_found_char
    (header : List ColumnSpec) (amf : Bool)
    (hnodup : (header.map ColumnSpec.name).Nodup) :
    ∀ (node : SchemaNode) (path : String) (found : List Bool) (a : Action)
      (found1 : List Bool),
      createAction header amf node path found = .ok (a, found1) →
      found.length = header.length →
      FoundChar header found found1 (leafPaths node path) := by
  intro node path found
  refine createAction.induct header amf
    (fun node path found => ∀ a found1,
      createAction header amf node path found = .ok (a, found1) →
      found.length = header.length →
      FoundChar header found found1 (leafPaths node path))
    (fun branches path found => ∀ as found1,
      createActionBranches header amf branches path found = .ok (as, found1) →
      found.length = header.length →
      FoundChar header found found1 (leafPathsBranches branches path))
    (fun fields path found => ∀ as found1,
      createActionFields header amf fields path found = .ok (as, found1) →
      found.length = header.length →
      FoundChar header found found1 (leafPathsFields fields path))
    ?_ ?_ ?_ ?_ ?_ ?_ ?_ ?_ ?_ ?_ ?_ ?_ ?_ ?_ ?_ ?_ ?_ ?_ node path found
  · -- record, fields compile ok
    intro path found name fields acts found1 hfields ih3 a fnd1 hok hlen
    simp only [createAction, hfields, Except.ok.injEq, Prod.mk.injEq] at hok
    obtain ⟨-, hf⟩ := hok
    subst hf
    simp only [leafPaths]
    exact ih3 acts found1 hfields hlen
  · -- record, fields compile fails
    intro path found name fields e hfields ih3 a fnd1 hok hlen
    simp only [createAction, hfields] at hok
    exact Except.noConfusion hok
  · -- union, branches compile ok
    intro path found branches acts found1 hbranches ih2 a fnd1 hok hlen
    simp only [createAction, hbranches, Except.ok.injEq, Prod.mk.injEq] at hok
    obtain ⟨-, hf⟩ := hok
    subst hf
    simp only [leafPaths]
    exact ih2 acts found1 hbranches hlen
  · -- union, branches compile fails
    intro path found branches e hbranches ih2 a fnd1 hok hlen
    simp only [createAction, hbranches] at hok
    exact Except.noConfusion hok
  · -- primitive
    intro path found k a fnd1 hok hlen
    simp only [createAction] at hok
    simpa only [leafPaths] using createLeafAction_found_char hok hnodup hlen
  · -- array
    intro path found e a fnd1 hok hlen
    simp only [createAction] at hok
    simpa only [leafPaths] using createLeafAction_found_char hok hnodup hlen
  · -- map
    intro path found v a fnd1 hok hlen
    simp only [createAction] at hok
    simpa only [leafPaths] using createLeafAction_found_char hok hnodup hlen
  · -- enum
    intro path found n ss a fnd1 hok hlen
    simp only [createAction] at hok
    simpa only [leafPaths] using createLeafAction_found_char hok hnodup hlen
  · -- fixed
    intro path found n sz a fnd1 hok hlen
    simp only [createAction] at hok
    simpa only [leafPaths] using createLeafAction_found_char hok hnodup hlen
  · -- symbolic
    intro path found n a fnd1 hok hlen
    simp only [createAction] at hok
    simpa only [leafPaths] using createLeafAction_found_char hok hnodup hlen
  · -- branches: nil
    intro path found as fnd1 hok hlen
    simp only [createActionBranches, Except.ok.injEq, Prod.mk.injEq] at hok
    obtain ⟨-, hf⟩ := hok
    subst hf
    simpa only [leafPathsBranches] using FoundChar.of_refl hlen
  · -- branches: cons, both ok
    intro path found b rest a found1 hb acts found2 hrest ih1 ih2 as fnd1 hok hlen
    simp only [createActionBranches, hb, hrest, Except.ok.injEq,
      Prod.mk.injEq] at hok
    obtain ⟨-, hf⟩ := hok
    subst hf
    have c1 := ih1 a found1 hb hlen
    have c2 := ih2 acts found2 hrest c1.1
    simpa only [leafPathsBranches] using FoundChar.append c1 c2
  · -- branches: cons, head ok then rest fails
    intro path found b rest a found1 hb e hrest ih1 ih2 as fnd1 hok hlen
    simp only [createActionBranches, hb, hrest] at hok
    exact Except.noConfusion hok
  · -- branches: cons, head fails
    intro path found b rest e hb ih1 as fnd1 hok hlen
    simp only [createActionBranches, hb] at hok
    exact Except.noConfusion hok
  · -- fields: nil
    intro path found as fnd1 hok hlen
    simp only [createActionFields, Except.ok.injEq, Prod.mk.injEq] at hok
    obtain ⟨-, hf⟩ := hok
    subst hf
    simpa only [leafPathsFields] using FoundChar.of_refl hlen
  · -- fields: cons, both ok
    intro path found fname fnode rest a found1 hf acts found2 hrest ih1 ih2
      as fnd1 hok hlen
    simp only [createActionFields, hf, hrest, Except.ok.injEq,
      Prod.mk.injEq] at hok
    obtain ⟨-, hff⟩ := hok
    subst hff
    have c1 := ih1 a found1 hf hlen
    have c2 := ih2 acts found2 hrest c1.1
    simpa only [leafPathsFields] using FoundChar.append c1 c2
  · -- fields: cons, head ok then rest fails
    intro path found fname fnode rest a found1 hf e hrest ih1 ih2 as fnd1 hok hlen
    simp only [createActionFields, hf, hrest] at hok
    exact Except.noConfusion hok
  · -- fields: cons, head fails
    intro path found fname fnode rest e hf ih1 as fnd1 hok hlen
    simp only [createActionFields, hf] at hok
    exact Except.noConfusion hok

end Avro

namespace Avro

/-- Shared concrete fixture: a target column set with columns `a` and `z`. -/
def exampleHeader : List ColumnSpec := [⟨"a", .int64⟩, ⟨"z", .str⟩]

/-- Shared concrete fixture: a root record schema with fields `a` and `c`. -/
def exampleSchema : SchemaNode :=
  .record "r" [("a", .primitive .aLong), ("c", .primitive .aInt)]

/-- C2: after a successful construction of a Plan, the column-found bitmap
spans exactly the target column set, and a column is marked found exactly
when its name matches some field path of the schema graph; the complement
(the columns mapping to `some false`) is what the caller must default-fill. -/
theorem column_found_iff_field_path
    (header : List ColumnSpec) (schema : SchemaNode) (amf : Bool)
    (d : AvroDeserializer)
    (hnodup : (header.map ColumnSpec.name).Nodup)
    (hok : AvroDeserializer.make header schema amf = .ok d) :
    d.column_found.length = header.length ∧
    ∀ i, (hi : i < header.length) →
      (d.column_found[i]? = some true ↔ header[i].name ∈ leafPaths schema "") := by
  cases schema with
  | record nm fields =>
      simp only [AvroDeserializer.make] at hok
      cases hca : createAction header amf (.record nm fields) ""
          (List.replicate header.length false) with
      | error e =>
          rw [hca] at hok
          exact Except.noConfusion hok
      | ok p =>
          obtain ⟨action, found⟩ := p
          rw [hca] at hok
          dsimp only at hok
          by_cases hmiss : (!amf && found.contains false) = true
          · rw [if_pos hmiss] at hok
            exact Except.noConfusion hok
          · rw [if_neg hmiss] at hok
            injection hok with hok
            subst hok
            have hchar := createAction_found_char header amf hnodup
              (.record nm fields) "" (List.replicate header.length false)
              action found hca (by rw [List.length_replicate])
            refine ⟨hchar.1, fun i hi => ?_⟩
            have hv := hchar.2 i hi
            rw [getD_replicate_false, Bool.false_or] at hv
            rw [hv]
            constructor
            · intro h
              exact of_decide_eq_true (Option.some.inj h)
            · intro hm
              rw [decide_eq_true hm]
  | primitive k => simp [AvroDeserializer.make] at hok
  | union bs => simp [AvroDeserializer.make] at hok
  | array e => simp [AvroDeserializer.make] at hok
  | map v => simp [AvroDeserializer.make] at hok
  | enum n ss => simp [AvroDeserializer.make] at hok
  | fixed n sz => simp [AvroDeserializer.make] at hok
  | symbolic n => simp [AvroDeserializer.make] at hok

/-- Witness for C2: for the concrete header `[a, z]` and schema with fields
`a` and `c`, column `a` is marked found (its name is a field path) and the
bitmap spans both columns. -/
theorem column_found_iff_field_path_witness :
    ∃ d, AvroDeserializer.make exampleHeader exampleSchema true = .ok d
      ∧ d.column_found.length = 2
      ∧ (d.column_found[0]? = some true ↔
          ("a" : String) ∈ leafPaths exampleSchema "") := by
  have hmake : AvroDeserializer.make exampleHeader exampleSchema true =
      .ok ⟨[true, false],
        Action.record [Action.deserialize 0 readOneToken,
                       Action.skip skipOneToken]⟩ := by
    simp [AvroDeserializer.make, createAction, createActionFields,
      createLeafAction, createDeserializeFn, compatible, concatPath,
      exampleHeader, exampleSchema]
  have h := column_found_iff_field_path exampleHeader exampleSchema true
    ⟨[true, false],
      Action.record [Action.deserialize 0 readOneToken,
                     Action.skip skipOneToken]⟩
    (by simp [exampleHeader]) hmake
  refine ⟨_, hmake, h.1, ?_⟩
  have h0 := h.2 0 (by simp [exampleHeader])
  simpa [exampleHeader] using h0

end Avro

namespace Avro

/-- Whether an `Except` result is a success. -/
def exceptIsOk {α : Type} : Except AvroError α → Bool
  | .ok _ => true
  | .error _ => false

/-- Modelled from the spec (§4.1): the type-assignability condition of one
non-record, non-union node at a path — if some target column bears that
exact name, the node's schema type must be assignable to the column type. -/
def wellTypedLeaf (header : List ColumnSpec) (node : SchemaNode)
    (path : String) : Bool :=
  match header.findIdx? (fun c => c.name == path) with
  | some idx => compatible node (header.getD idx ⟨"", .int32⟩).dataType
  | none => true

mutual

/-- Modelled from the spec (§4.1): every matched leaf of the walk under
`node` at `path` is type-assignable to its column. -/
def wellTyped (header : List ColumnSpec) (node : SchemaNode)
    (path : String) : Bool :=
  match node with
  | .record _ fields => wellTypedFields header fields path
  | .union branches => wellTypedBranches header branches path
  | .primitive k => wellTypedLeaf header (.primitive k) path
  | .array e => wellTypedLeaf header (.array e) path
  | .map v => wellTypedLeaf header (.map v) path
  | .enum n ss => wellTypedLeaf header (.enum n ss) path
  | .fixed n sz => wellTypedLeaf header (.fixed n sz) path
  | .symbolic n => wellTypedLeaf header (.symbolic n) path
termination_by sizeOf node
decreasing_by all_goals simp_wf <;> omega

/-- `wellTyped` over record fields. -/
def wellTypedFields (header : List ColumnSpec)
    (fields : List (String × SchemaNode)) (path : String) : Bool :=
  match fields with
  | [] => true
  | (fname, fnode) :: rest =>
      wellTyped header fnode (concatPath path fname) &&
      wellTypedFields header rest path
termination_by sizeOf fields
decreasing_by all_goals simp_wf <;> omega

/-- `wellTyped` over union branches. -/
def wellTypedBranches (header : List ColumnSpec)
    (branches : List SchemaNode) (path : String) : Bool :=
  match branches with
  | [] => true
  | b :: rest =>
      wellTyped header b path && wellTypedBranches header rest path
termination_by sizeOf branches
decreasing_by all_goals simp_wf <;> omega

end

/-- Whether an action is a `Skip`. -/
def Action.isSkip : Action → Bool
  | .skip _ => true
  | _ => false

/-- The leaf obligation of `unmatchedSkips`: a leaf with no matching target
column must have compiled to a Skip action; a matched leaf is unrestricted. -/
def unmatchedLeafOk (header : List ColumnSpec) (path : String)
    (a : Action) : Bool :=
  match header.findIdx? (fun c => c.name == path) with
  | none => a.isSkip
  | some _ => true

mutual

/-- The compiled action tree has a Skip action at every unmatched field:
the structural check that `createAction` compiled a Skip action for each
schema position whose path has no matching target column. -/
def unmatchedSkips (header : List ColumnSpec) (node : SchemaNode)
    (path : String) (a : Action) : Bool :=
  match node with
  | .record _ fields =>
      match a with
      | .record acts => unmatchedSkipsFields header fields path acts
      | _ => false
  | .union branches =>
      match a with
      | .union acts => unmatchedSkipsBranches header branches path acts
      | _ => false
  | .primitive _ => unmatchedLeafOk header path a
  | .array _ => unmatchedLeafOk header path a
  | .map _ => unmatchedLeafOk header path a
  | .enum _ _ => unmatchedLeafOk header path a
  | .fixed _ _ => unmatchedLeafOk header path a
  | .symbolic _ => unmatchedLeafOk header path a
termination_by sizeOf node
decreasing_by all_goals simp_wf <;> omega

/-- `unmatchedSkips` over record fields paired with their actions. -/
def unmatchedSkipsFields (header : List ColumnSpec)
    (fields : List (String × SchemaNode)) (path : String)
    (acts : List Action) : Bool :=
  match fields, acts with
  | [], [] => true
  | (fname, fnode) :: rest, a :: as =>
      unmatchedSkips header fnode (concatPath path fname) a &&
      unmatchedSkipsFields header rest path as
  | _, _ => false
termination_by sizeOf fields
decreasing_by all_goals simp_wf <;> omega

/-- `unmatchedSkips` over union branches paired with their actions. -/
def unmatchedSkipsBranches (header : List ColumnSpec)
    (branches : List SchemaNode) (path : String) (acts : List Action) : Bool :=
  match branches, acts with
  | [], [] => true
  | b :: rest, a :: as =>
      unmatchedSkips header b path a &&
      unmatchedSkipsBranches header rest path as
  | _, _ => false
termination_by sizeOf branches
decreasing_by all_goals simp_wf <;> omega

end

/-- Helper: what a successful name search means: a valid index whose
column bears exactly the searched name. -/
theorem findIdx?_name {header : List ColumnSpec} {path : String} {idx : Nat}
    (hfind : header.findIdx? (fun c => c.name == path) = some idx) :
    idx < header.length ∧
    ∃ hlt : idx < header.length, header[idx].name = path := by
  obtain ⟨hidxlt, hfidx⟩ := List.findIdx?_eq_some_iff_findIdx_eq.mp hfind
  refine ⟨hidxlt, hidxlt, ?_⟩
  have hw : header.findIdx (fun c => c.name == path) < header.length := by
    rw [hfidx]; exact hidxlt
  have hp := @List.findIdx_getElem _ (fun c => c.name == path) header hw
  simp only [hfidx] at hp
  simpa using hp

end Avro

namespace Avro

/-- With `allow_missing_fields = false`, a walk whose paths contain one
with no matching target column cannot succeed. -/
theorem createAction_fails_on_unmatched (header : List ColumnSpec) :
    ∀ (node : SchemaNode) (path : String) (found : List Bool) (p : String),
      p ∈ leafPaths node path → (∀ c ∈ header, c.name ≠ p) →
      exceptIsOk (createAction header false node path found) = false := by
  intro node path found
  refine createAction.induct header false
    (fun node path found => ∀ p, p ∈ leafPaths node path →
      (∀ c ∈ header, c.name ≠ p) →
      exceptIsOk (createAction header false node path found) = false)
    (fun branches path found => ∀ p, p ∈ leafPathsBranches branches path →
      (∀ c ∈ header, c.name ≠ p) →
      exceptIsOk (createActionBranches header false branches path found) = false)
    (fun fields path found => ∀ p, p ∈ leafPathsFields fields path →
      (∀ c ∈ header, c.name ≠ p) →
      exceptIsOk (createActionFields header false fields path found) = false)
    ?_ ?_ ?_ ?_ ?_ ?_ ?_ ?_ ?_ ?_ ?_ ?_ ?_ ?_ ?_ ?_ ?_ ?_ node path found
  · intro path found name fields acts found1 hfields ih3 p hp hnc
    simp only [leafPaths] at hp
    have := ih3 p hp hnc
    rw [hfields] at this
    simp [exceptIsOk] at this
  · intro path found name fields e hfields ih3 p hp hnc
    simp only [createAction, hfields, exceptIsOk]
  · intro path found branches acts found1 hbranches ih2 p hp hnc
    simp only [leafPaths] at hp
    have := ih2 p hp hnc
    rw [hbranches] at this
    simp [exceptIsOk] at this
  · intro path found branches e hbranches ih2 p hp hnc
    simp only [createAction, hbranches, exceptIsOk]
  all_goals try
    (intro path found k p hp hnc
     simp only [leafPaths, List.mem_singleton] at hp
     subst hp
     simp only [createAction]
     unfold createLeafAction
     cases hfind : header.findIdx? (fun c => c.name == p) with
     | some idx =>
         obtain ⟨-, hlt, hname⟩ := findIdx?_name hfind
         exact absurd hname (hnc _ (List.getElem_mem hlt))
     | none => simp [exceptIsOk])
  all_goals try
    (intro path found n ss p hp hnc
     simp only [leafPaths, List.mem_singleton] at hp
     subst hp
     simp only [createAction]
     unfold createLeafAction
     cases hfind : header.findIdx? (fun c => c.name == p) with
     | some idx =>
         obtain ⟨-, hlt, hname⟩ := findIdx?_name hfind
         exact absurd hname (hnc _ (List.getElem_mem hlt))
     | none => simp [exceptIsOk])
  · intro path found p hp hnc
    simp only [leafPathsBranches] at hp
    exact absurd hp (List.not_mem_nil p)
  · intro path found b rest a found1 hb acts found2 hrest ih1 ih2 p hp hnc
    simp only [leafPathsBranches, List.mem_append] at hp
    rcases hp with hp | hp
    · have := ih1 p hp hnc
      rw [hb] at this
      simp [exceptIsOk] at this
    · have := ih2 p hp hnc
      rw [hrest] at this
      simp [exceptIsOk] at this
  · intro path found b rest a found1 hb e hrest ih1 ih2 p hp hnc
    simp only [createActionBranches, hb, hrest, exceptIsOk]
  · intro path found b rest e hb ih1 p hp hnc
    simp only [createActionBranches, hb, exceptIsOk]
  · intro path found p hp hnc
    simp only [leafPathsFields] at hp
    exact absurd hp (List.not_mem_nil p)
  · intro path found fname fnode rest a found1 hf acts found2 hrest ih1 ih2
      p hp hnc
    simp only [leafPathsFields, List.mem_append] at hp
    rcases hp with hp | hp
    · have := ih1 p hp hnc
      rw [hf] at this
      simp [exceptIsOk] at this
    · have := ih2 p hp hnc
      rw [hrest] at this
      simp [exceptIsOk] at this
  · intro path found fname fnode rest a found1 hf e hrest ih1 ih2 p hp hnc
    simp only [createActionFields, hf, hrest, exceptIsOk]
  · intro path found fname fnode rest e hf ih1 p hp hnc
    simp only [createActionFields, hf, exceptIsOk]

end Avro

namespace Avro

/-- With `allow_missing_fields = true`, a type-correct walk always
succeeds: every unmatched field compiles to a Skip, never to a failure. -/
theorem createAction_ok_of_wellTyped (header : List ColumnSpec) :
    ∀ (node : SchemaNode) (path : String) (found : List Bool),
      wellTyped header node path = true →
      exceptIsOk (createAction header true node path found) = true := by
  intro node path found
  refine createAction.induct header true
    (fun node path found => wellTyped header node path = true →
      exceptIsOk (createAction header true node path found) = true)
    (fun branches path found => wellTypedBranches header branches path = true →
      exceptIsOk (createActionBranches header true branches path found) = true)
    (fun fields path found => wellTypedFields header fields path = true →
      exceptIsOk (createActionFields header true fields path found) = true)
    ?_ ?_ ?_ ?_ ?_ ?_ ?_ ?_ ?_ ?_ ?_ ?_ ?_ ?_ ?_ ?_ ?_ ?_ node path found
  · intro path found name fields acts found1 hfields ih3 hwt
    simp only [createAction, hfields, exceptIsOk]
  · intro path found name fields e hfields ih3 hwt
    simp only [wellTyped] at hwt
    have := ih3 hwt
    rw [hfields] at this
    simp [exceptIsOk] at this
  · intro path found branches acts found1 hbranches ih2 hwt
    simp only [createAction, hbranches, exceptIsOk]
  · intro path found branches e hbranches ih2 hwt
    simp only [wellTyped] at hwt
    have := ih2 hwt
    rw [hbranches] at this
    simp [exceptIsOk] at this
  all_goals try
    (intro path found k hwt
     simp only [wellTyped] at hwt
     simp only [createAction]
     unfold createLeafAction
     unfold wellTypedLeaf at hwt
     cases hfind : header.findIdx? (fun c => c.name == path) with
     | some idx =>
         rw [hfind] at hwt
         dsimp only at hwt
         simp only [createDeserializeFn]
         rw [if_pos hwt]
         rfl
     | none => rfl)
  all_goals try
    (intro path found n ss hwt
     simp only [wellTyped] at hwt
     simp only [createAction]
     unfold createLeafAction
     unfold wellTypedLeaf at hwt
     cases hfind : header.findIdx? (fun c => c.name == path) with
     | some idx =>
         rw [hfind] at hwt
         dsimp only at hwt
         simp only [createDeserializeFn]
         rw [if_pos hwt]
         rfl
     | none => rfl)
  · intro path found hwt
    simp only [createActionBranches, exceptIsOk]
  · intro path found b rest a found1 hb acts found2 hrest ih1 ih2 hwt
    simp only [createActionBranches, hb, hrest, exceptIsOk]
  · intro path found b rest a found1 hb e hrest ih1 ih2 hwt
    simp only [wellTypedBranches, Bool.and_eq_true] at hwt
    have := ih2 hwt.2
    rw [hrest] at this
    simp [exceptIsOk] at this
  · intro path found b rest e hb ih1 hwt
    simp only [wellTypedBranches, Bool.and_eq_true] at hwt
    have := ih1 hwt.1
    rw [hb] at this
    simp [exceptIsOk] at this
  · intro path found hwt
    simp only [createActionFields, exceptIsOk]
  · intro path found fname fnode rest a found1 hf acts found2 hrest ih1 ih2 hwt
    simp only [createActionFields, hf, hrest, exceptIsOk]
  · intro path found fname fnode rest a found1 hf e hrest ih1 ih2 hwt
    simp only [wellTypedFields, Bool.and_eq_true] at hwt
    have := ih2 hwt.2
    rw [hrest] at this
    simp [exceptIsOk] at this
  · intro path found fname fnode rest e hf ih1 hwt
    simp only [wellTypedFields, Bool.and_eq_true] at hwt
    have := ih1 hwt.1
    rw [hf] at this
    simp [exceptIsOk] at this

/-- With `allow_missing_fields = true`, every successful walk compiles a
Skip action at every unmatched field position. -/
theorem createAction_skips_unmatched (header : List ColumnSpec) :
    ∀ (node : SchemaNode) (path : String) (found : List Bool) (a : Action)
      (found1 : List Bool),
      createAction header true node path found = .ok (a, found1) →
      unmatchedSkips header node path a = true := by
  intro node path found
  refine createAction.induct header true
    (fun node path found => ∀ a found1,
      createAction header true node path found = .ok (a, found1) →
      unmatchedSkips header node path a = true)
    (fun branches path found => ∀ as found1,
      createActionBranches header true branches path found = .ok (as, found1) →
      unmatchedSkipsBranches header branches path as = true)
    (fun fields path found => ∀ as found1,
      createActionFields header true fields path found = .ok (as, found1) →
      unmatchedSkipsFields header fields path as = true)
    ?_ ?_ ?_ ?_ ?_ ?_ ?_ ?_ ?_ ?_ ?_ ?_ ?_ ?_ ?_ ?_ ?_ ?_ node path found
  · intro path found name fields acts found1 hfields ih3 a fnd1 hok
    simp only [createAction, hfields, Except.ok.injEq, Prod.mk.injEq] at hok
    obtain ⟨ha, -⟩ := hok
    subst ha
    simp only [unmatchedSkips]
    exact ih3 acts found1 hfields
  · intro path found name fields e hfields ih3 a fnd1 hok
    simp only [createAction, hfields] at hok
    exact Except.noConfusion hok
  · intro path found branches acts found1 hbranches ih2 a fnd1 hok
    simp only [createAction, hbranches, Except.ok.injEq, Prod.mk.injEq] at hok
    obtain ⟨ha, -⟩ := hok
    subst ha
    simp only [unmatchedSkips]
    exact ih2 acts found1 hbranches
  · intro path found branches e hbranches ih2 a fnd1 hok
    simp only [createAction, hbranches] at hok
    exact Except.noConfusion hok
  all_goals try
    (intro path found k a fnd1 hok
     simp only [createAction] at hok
     unfold createLeafAction at hok
     simp only [unmatchedSkips]
     unfold unmatchedLeafOk
     cases hfind : header.findIdx? (fun c => c.name == path) with
     | some idx => rfl
     | none =>
         rw [hfind] at hok
         simp at hok
         obtain ⟨ha, -⟩ := hok
         subst ha
         rfl)
  all_goals try
    (intro path found n ss a fnd1 hok
     simp only [createAction] at hok
     unfold createLeafAction at hok
     simp only [unmatchedSkips]
     unfold unmatchedLeafOk
     cases hfind : header.findIdx? (fun c => c.name == path) with
     | some idx => rfl
     | none =>
         rw [hfind] at hok
         simp at hok
         obtain ⟨ha, -⟩ := hok
         subst ha
         rfl)
  · intro path found as fnd1 hok
    simp only [createActionBranches, Except.ok.injEq, Prod.mk.injEq] at hok
    obtain ⟨ha, -⟩ := hok
    subst ha
    simp only [unmatchedSkipsBranches]
  · intro path found b rest a found1 hb acts found2 hrest ih1 ih2 as fnd1 hok
    simp only [createActionBranches, hb, hrest, Except.ok.injEq,
      Prod.mk.injEq] at hok
    obtain ⟨ha, -⟩ := hok
    subst ha
    simp only [unmatchedSkipsBranches, Bool.and_eq_true]
    exact ⟨ih1 a found1 hb, ih2 acts found2 hrest⟩
  · intro path found b rest a found1 hb e hrest ih1 ih2 as fnd1 hok
    simp only [createActionBranches, hb, hrest] at hok
    exact Except.noConfusion hok
  · intro path found b rest e hb ih1 as fnd1 hok
    simp only [createActionBranches, hb] at hok
    exact Except.noConfusion hok
  · intro path found as fnd1 hok
    simp only [createActionFields, Except.ok.injEq, Prod.mk.injEq] at hok
    obtain ⟨ha, -⟩ := hok
    subst ha
    simp only [unmatchedSkipsFields]
  · intro path found fname fnode rest a found1 hf acts found2 hrest ih1 ih2
      as fnd1 hok
    simp only [createActionFields, hf, hrest, Except.ok.injEq,
      Prod.mk.injEq] at hok
    obtain ⟨ha, -⟩ := hok
    subst ha
    simp only [unmatchedSkipsFields, Bool.and_eq_true]
    exact ⟨ih1 a found1 hf, ih2 acts found2 hrest⟩
  · intro path found fname fnode rest a found1 hf e hrest ih1 ih2 as fnd1 hok
    simp only [createActionFields, hf, hrest] at hok
    exact Except.noConfusion hok
  · intro path found fname fnode rest e hf ih1 as fnd1 hok
    simp only [createActionFields, hf] at hok
    exact Except.noConfusion hok

end Avro

namespace Avro

/-- C3: over a type-correct root record schema,
(i) with `allow_missing_fields = false`, if some schema field path has no
matching target column, construction fails before any row is read;
(ii) with `allow_missing_fields = true` construction succeeds, the compiled
tree has a Skip action at every unmatched field, and every target column
whose name matches no field path is left unmarked in the found bitmap (so
the caller default-fills it on every row). -/
theorem allow_missing_fields_contract
    (header : List ColumnSpec) (nm : String)
    (fields : List (String × SchemaNode))
    (hnodup : (header.map ColumnSpec.name).Nodup)
    (hwt : wellTyped header (.record nm fields) "" = true) :
    ((∃ p, p ∈ leafPaths (.record nm fields) "" ∧ ∀ c ∈ header, c.name ≠ p) →
        exceptIsOk (AvroDeserializer.make header (.record nm fields) false)
          = false)
    ∧ ∃ d, AvroDeserializer.make header (.record nm fields) true = .ok d
        ∧ unmatchedSkips header (.record nm fields) "" d.row_action = true
        ∧ d.column_found.length = header.length
        ∧ ∀ i, (hi : i < header.length) →
            header[i].name ∉ leafPaths (.record nm fields) "" →
            d.column_found[i]? = some false := by
  constructor
  · rintro ⟨p, hp, hnc⟩
    have hA := createAction_fails_on_unmatched header (.record nm fields) ""
      (List.replicate header.length false) p hp hnc
    cases hca : createAction header false (.record nm fields) ""
        (List.replicate header.length false) with
    | ok pr =>
        rw [hca] at hA
        simp [exceptIsOk] at hA
    | error e =>
        simp only [AvroDeserializer.make, hca]
        rfl
  · have hB := createAction_ok_of_wellTyped header (.record nm fields) ""
      (List.replicate header.length false) hwt
    cases hca : createAction header true (.record nm fields) ""
        (List.replicate header.length false) with
    | error e =>
        rw [hca] at hB
        simp [exceptIsOk] at hB
    | ok pr =>
        obtain ⟨action, found⟩ := pr
        have hmake : AvroDeserializer.make header (.record nm fields) true =
            .ok ⟨found, action⟩ := by
          simp [AvroDeserializer.make, hca]
        refine ⟨⟨found, action⟩, hmake,
          createAction_skips_unmatched header (.record nm fields) ""
            (List.replicate header.length false) action found hca, ?_, ?_⟩
        · have hchar := createAction_found_char header true hnodup
            (.record nm fields) "" (List.replicate header.length false)
            action found hca (by rw [List.length_replicate])
          exact hchar.1
        · intro i hi hnot
          have hchar := createAction_found_char header true hnodup
            (.record nm fields) "" (List.replicate header.length false)
            action found hca (by rw [List.length_replicate])
          have hv := hchar.2 i hi
          rw [getD_replicate_false, Bool.false_or] at hv
          dsimp only
          rw [hv, decide_eq_false hnot]

end Avro

namespace Avro

/-- Witness for C3: header `[a, z]`, schema fields `a`, `c`: with
`allow_missing_fields = false` construction fails (field path `c` has no
column); with `true` it succeeds, compiles a Skip for the unmatched field
and leaves column `z` unmarked in the found bitmap. -/
theorem allow_missing_fields_contract_witness :
    exceptIsOk (AvroDeserializer.make exampleHeader exampleSchema false) = false
    ∧ ∃ d, AvroDeserializer.make exampleHeader exampleSchema true = .ok d
        ∧ unmatchedSkips exampleHeader exampleSchema "" d.row_action = true
        ∧ d.column_found[1]? = some false := by
  have h := allow_missing_fields_contract exampleHeader "r"
    [("a", .primitive .aLong), ("c", .primitive .aInt)]
    (by simp [exampleHeader])
    (by simp [wellTyped, wellTypedFields, wellTypedLeaf, compatible,
        concatPath, exampleHeader])
  constructor
  · exact h.1 ⟨"c", by simp [leafPaths, leafPathsFields, concatPath],
      by decide⟩
  · obtain ⟨d, hmk, hsk, hlen, hchar⟩ := h.2
    exact ⟨d, hmk, hsk,
      hchar 1 (by simp [exampleHeader])
        (by simp [exampleHeader, leafPaths, leafPathsFields, concatPath])⟩

end Avro

namespace Avro

/-- Helper: a pointwise-stronger filter keeps at most as many elements. -/
theorem filter_length_mono {α : Type} {l : List α} {p q : α → Bool}
    (h : ∀ a, p a = true → q a = true) :
    (l.filter p).length ≤ (l.filter q).length := by
  induction l with
  | nil => exact Nat.le_refl 0
  | cons x xs ih =>
      simp only [List.filter_cons]
      cases hp : p x with
      | true =>
          have hq := h x hp
          rw [hq, if_pos rfl, if_pos rfl, List.length_cons, List.length_cons]
          exact Nat.succ_le_succ ih
      | false =>
          cases hq : q x with
          | true =>
              rw [if_neg Bool.false_ne_true, if_pos rfl, List.length_cons]
              exact Nat.le_succ_of_le ih
          | false =>
              rw [if_neg Bool.false_ne_true, if_neg Bool.false_ne_true]
              exact ih

/-- Helper: excluding one list element strictly shrinks the filter count. -/
theorem filter_notMem_cons_lt (names memo : List String) (name : String)
    (hmem : name ∈ names) (hnot : name ∉ memo) :
    (names.filter (fun n => !(decide (n ∈ name :: memo)))).length <
    (names.filter (fun n => !(decide (n ∈ memo)))).length := by
  induction names with
  | nil => simp at hmem
  | cons x xs ih =>
      simp only [List.filter_cons]
      by_cases hx : x = name
      · subst hx
        have hmono : ∀ a : String, (!(decide (a ∈ x :: memo))) = true →
            (!(decide (a ∈ memo))) = true := by
          intro a ha
          simp only [Bool.not_eq_true', decide_eq_false_iff_not,
            List.mem_cons, not_or] at ha ⊢
          exact ha.2
        have hle := filter_length_mono (l := xs) hmono
        have h1 : (!(decide (x ∈ x :: memo))) = false := by simp
        have h2 : (!(decide (x ∈ memo))) = true := by simp [hnot]
        rw [h1, h2, if_neg Bool.false_ne_true, if_pos rfl, List.length_cons]
        omega
      · have hmem2 : name ∈ xs := by
          rcases List.mem_cons.mp hmem with h | h
          · exact absurd h.symm hx
          · exact h
        have heq : (decide (x ∈ name :: memo)) = (decide (x ∈ memo)) := by
          rw [decide_eq_decide]
          simp [List.mem_cons, hx]
        rw [heq]
        have hlt := ih hmem2
        cases hb : (!(decide (x ∈ memo))) with
        | true =>
            rw [if_pos rfl, if_pos rfl, List.length_cons, List.length_cons]
            exact Nat.succ_lt_succ hlt
        | false =>
            rw [if_neg Bool.false_ne_true, if_neg Bool.false_ne_true]
            exact hlt

/-- The number of named types of the environment not yet memoized: the
decreasing quantity of the memoized skip compilation. -/
def unseenCount (env : List (String × SchemaNode)) (memo : List String) : Nat :=
  ((env.map Prod.fst).filter (fun n => !(decide (n ∈ memo)))).length

/-- Growing the memo never increases the unseen count. -/
theorem unseenCount_append_le (env : List (String × SchemaNode))
    (extra memo : List String) :
    unseenCount env (extra ++ memo) ≤ unseenCount env memo := by
  refine filter_length_mono ?_
  intro a ha
  simp only [Bool.not_eq_true', decide_eq_false_iff_not, List.mem_append,
    not_or] at ha ⊢
  exact ha.2

/-- Memoizing a not-yet-seen name of the environment strictly decreases
the unseen count. -/
theorem unseenCount_cons_lt (env : List (String × SchemaNode))
    (memo : List String) (name : String)
    (hmem : name ∈ env.map Prod.fst) (hnot : name ∉ memo) :
    unseenCount env (name :: memo) < unseenCount env memo :=
  filter_notMem_cons_lt (env.map Prod.fst) memo name hmem hnot

end Avro

namespace Avro

/-- Helper: a successful association lookup means the key is present. -/
theorem mem_map_fst_of_lookup {env : List (String × SchemaNode)} {n : String}
    {d : SchemaNode} (h : env.lookup n = some d) : n ∈ env.map Prod.fst := by
  induction env with
  | nil => simp [List.lookup] at h
  | cons e rest ih =>
      rw [List.lookup] at h
      cases hbeq : (n == e.1) with
      | true =>
          simp only [List.map_cons, List.mem_cons]
          exact Or.inl (beq_iff_eq.mp hbeq)
      | false =>
          rw [hbeq] at h
          simp only [List.map_cons, List.mem_cons]
          exact Or.inr (ih h)

/-- Helper: a lexicographic step: first component does not increase and
second strictly decreases. -/
theorem lex_step {a a' b b' : Nat} (h1 : a' ≤ a) (h2 : b' < b) :
    Prod.Lex (fun x y => x < y) (fun x y => x < y) (a', b') (a, b) := by
  rcases Nat.lt_or_eq_of_le h1 with h | h
  · exact Prod.Lex.left _ _ h
  · subst h
    exact Prod.Lex.right _ h2

mutual

/-- Modelled from the spec: `createSkipFn` together with the
`symbolic_skip_fn_map` memo (§4.1 cycle-breaker, §9; only declarations are
in the sources), instrumented by its memoization dynamics.  `env` resolves
a named type's symbolic name to its definition node (`avro::resolveSymbol`);
`memo` is the name set already present in `symbolic_skip_fn_map`.  The call
returns the names whose skip logic it compiled, in completion order (the
final memo is this delta prepended to `memo`).  A symbolic reference whose
name is memoized compiles nothing — it resolves to the entry already
present — and a new name is inserted before recursing into its definition,
so self-references terminate.  Totality of this definition, well-founded on
(unseen names, node size), is the bounded-compilation property. -/
def createSkipFn (env : List (String × SchemaNode)) (node : SchemaNode)
    (memo : List String) : List String :=
  match node with
  | .record _ fields => createSkipFnFields env fields memo
  | .union branches => createSkipFnBranches env branches memo
  | .array e => createSkipFn env e memo
  | .map v => createSkipFn env v memo
  | .primitive _ => []
  | .enum _ _ => []
  | .fixed _ _ => []
  | .symbolic n =>
      if hn : n ∈ memo then []
      else
        match hl : env.lookup n with
        | some defn => createSkipFn env defn (n :: memo) ++ [n]
        | none => []
termination_by (unseenCount env memo, sizeOf node)
decreasing_by
  all_goals simp_wf
  all_goals first
    | (apply Prod.Lex.right
       omega)
    | (apply Prod.Lex.left
       exact unseenCount_cons_lt env memo n (mem_map_fst_of_lookup hl) hn)
    | exact lex_step (unseenCount_append_le env _ memo) (by omega)

/-- The field loop of `createSkipFn` over a record's fields, threading the
memo through the children. -/
def createSkipFnFields (env : List (String × SchemaNode))
    (fields : List (String × SchemaNode)) (memo : List String) : List String :=
  match fields with
  | [] => []
  | (_, fnode) :: rest =>
      let d1 := createSkipFn env fnode memo
      let d2 := createSkipFnFields env rest (d1 ++ memo)
      d2 ++ d1
termination_by (unseenCount env memo, sizeOf fields)
decreasing_by
  all_goals simp_wf
  all_goals first
    | (apply Prod.Lex.right
       omega)
    | (apply Prod.Lex.left
       exact unseenCount_cons_lt env memo n (mem_map_fst_of_lookup hl) hn)
    | exact lex_step (unseenCount_append_le env _ memo) (by omega)

/-- The branch loop of `createSkipFn` over a union's branches, threading
the memo through the children. -/
def createSkipFnBranches (env : List (String × SchemaNode))
    (branches : List SchemaNode) (memo : List String) : List String :=
  match branches with
  | [] => []
  | b :: rest =>
      let d1 := createSkipFn env b memo
      let d2 := createSkipFnBranches env rest (d1 ++ memo)
      d2 ++ d1
termination_by (unseenCount env memo, sizeOf branches)
decreasing_by
  all_goals simp_wf
  all_goals first
    | (apply Prod.Lex.right
       omega)
    | (apply Prod.Lex.left
       exact unseenCount_cons_lt env memo n (mem_map_fst_of_lookup hl) hn)
    | exact lex_step (unseenCount_append_le env _ memo) (by omega)

end

end Avro

namespace Avro

/-- C4: the memo map makes skip compilation terminate and compile each
named type at most once: (i) on any walk, the list of names whose skip
logic gets compiled has no duplicates and avoids every already-memoized
name (each named type's skip logic is compiled at most once); (ii) a
symbolic reference to a memoized name compiles nothing — it resolves to
the entry already present.  Totality of `createSkipFn` itself (proved
well-founded on (unseen names, node size)) is the termination claim. -/
theorem createSkipFn_compiles_each_name_once
    (env : List (String × SchemaNode)) :
    (∀ (node : SchemaNode) (memo : List String),
        (createSkipFn env node memo).Nodup
        ∧ ∀ n ∈ createSkipFn env node memo, n ∉ memo)
    ∧ (∀ (nm : String) (memo : List String), nm ∈ memo →
        createSkipFn env (.symbolic nm) memo = []) := by
  constructor
  · intro node memo
    refine createSkipFn.induct env
      (fun node memo => (createSkipFn env node memo).Nodup
        ∧ ∀ n ∈ createSkipFn env node memo, n ∉ memo)
      (fun branches memo => (createSkipFnBranches env branches memo).Nodup
        ∧ ∀ n ∈ createSkipFnBranches env branches memo, n ∉ memo)
      (fun fields memo => (createSkipFnFields env fields memo).Nodup
        ∧ ∀ n ∈ createSkipFnFields env fields memo, n ∉ memo)
      ?_ ?_ ?_ ?_ ?_ ?_ ?_ ?_ ?_ ?_ ?_ ?_ ?_ ?_ node memo
    · intro memo name fields ih
      simpa only [createSkipFn] using ih
    · intro memo branches ih
      simpa only [createSkipFn] using ih
    · intro memo e ih
      simpa only [createSkipFn] using ih
    · intro memo v ih
      simpa only [createSkipFn] using ih
    · intro memo kind
      simp [createSkipFn]
    · intro memo name symbols
      simp [createSkipFn]
    · intro memo name size
      simp [createSkipFn]
    · intro memo n hmem
      simp [createSkipFn, hmem]
    · intro memo n hn defn hl ih
      have hrw : createSkipFn env (.symbolic n) memo =
          createSkipFn env defn (n :: memo) ++ [n] := by
        simp only [createSkipFn, dif_neg hn]
        split
        · rename_i d hd
          rw [hl] at hd
          injection hd with hd
          subst hd
          rfl
        · rename_i hd
          rw [hl] at hd
          exact Option.noConfusion hd
      rw [hrw]
      obtain ⟨hnd, hdisj⟩ := ih
      constructor
      · refine hnd.append (List.nodup_singleton n) ?_
        intro m hm1 hm2
        rcases List.mem_singleton.mp hm2 with rfl
        exact (hdisj m hm1) (List.mem_cons_self m memo)
      · intro m hm
        rcases List.mem_append.mp hm with hm | hm
        · intro hmm
          exact (hdisj m hm) (List.mem_cons_of_mem n hmm)
        · rcases List.mem_singleton.mp hm with rfl
          exact hn
    · intro memo n hn hl
      have hrw : createSkipFn env (.symbolic n) memo = [] := by
        simp only [createSkipFn, dif_neg hn]
        split
        · rename_i d hd
          rw [hl] at hd
          exact Option.noConfusion hd
        · rfl
      rw [hrw]
      simp
    · intro memo
      simp [createSkipFnBranches]
    · intro memo b rest
      intro d1 ih1 ih2
      have hrw : createSkipFnBranches env (b :: rest) memo =
          createSkipFnBranches env rest (createSkipFn env b memo ++ memo) ++
            createSkipFn env b memo := by
        simp only [createSkipFnBranches]
      rw [hrw]
      obtain ⟨hnd1, hdisj1⟩ := ih1
      obtain ⟨hnd2, hdisj2⟩ := ih2
      constructor
      · refine hnd2.append hnd1 ?_
        intro m hm2 hm1
        exact (hdisj2 m hm2) (List.mem_append.mpr (Or.inl hm1))
      · intro m hm
        rcases List.mem_append.mp hm with hm | hm
        · intro hmm
          exact (hdisj2 m hm) (List.mem_append.mpr (Or.inr hmm))
        · exact hdisj1 m hm
    · intro memo
      simp [createSkipFnFields]
    · intro memo fname fnode rest
      intro d1 ih1 ih2
      have hrw : createSkipFnFields env ((fname, fnode) :: rest) memo =
          createSkipFnFields env rest (createSkipFn env fnode memo ++ memo) ++
            createSkipFn env fnode memo := by
        simp only [createSkipFnFields]
      rw [hrw]
      obtain ⟨hnd1, hdisj1⟩ := ih1
      obtain ⟨hnd2, hdisj2⟩ := ih2
      constructor
      · refine hnd2.append hnd1 ?_
        intro m hm2 hm1
        exact (hdisj2 m hm2) (List.mem_append.mpr (Or.inl hm1))
      · intro m hm
        rcases List.mem_append.mp hm with hm | hm
        · intro hmm
          exact (hdisj2 m hm) (List.mem_append.mpr (Or.inr hmm))
        · exact hdisj1 m hm
  · intro nm memo hmem
    simp [createSkipFn, hmem]

end Avro

namespace Avro

/-- A self-referential named type: a linked list record whose `next` field
refers back to the record by symbolic name. -/
def linkedListEnv : List (String × SchemaNode) :=
  [("LinkedList", .record "LinkedList"
      [("value", .primitive .aLong),
       ("next", .union [.primitive .aNull, .symbolic "LinkedList"])])]

/-- Witness for C4: compiling the skip logic of the self-referential
`LinkedList` schema compiles each name at most once (no duplicates in the
compiled trace), and a reference to an already-memoized name compiles
nothing. -/
theorem createSkipFn_compiles_each_name_once_witness :
    (createSkipFn linkedListEnv (.symbolic "LinkedList") []).Nodup
    ∧ createSkipFn linkedListEnv (.symbolic "LinkedList") ["LinkedList"] = [] :=
  ⟨((createSkipFn_compiles_each_name_once linkedListEnv).1
      (.symbolic "LinkedList") []).1,
   (createSkipFn_compiles_each_name_once linkedListEnv).2
      "LinkedList" ["LinkedList"] (by simp)⟩

end Avro

namespace Avro

/-- Modelled from the spec (§4.4): one `AvroConfluentRowInputFormat`
reader instance: the external schema registry (resolving a schema id to a
parsed schema graph; the process-wide registry cache is outside this
model), the target header and settings used to compile Plans, and the
instance-owned `deserializer_cache` (schema id → compiled Plan). -/
structure ConfluentReader where
  schema_registry : Nat → SchemaNode
  header : List ColumnSpec
  allow_missing_fields : Bool
  deserializer_cache : List (Nat × AvroDeserializer)

/-- Modelled from the spec: `getOrCreateDeserializer(schema_id)`
(declaration only in the sources): look the id up in this instance's
cache; on a hit return the cached Plan; on a miss resolve the schema,
compile a fresh `AvroDeserializer` and insert it.  The returned flag
records whether this call compiled a new Plan. -/
def getOrCreateDeserializer (r : ConfluentReader) (schema_id : Nat) :
    Except AvroError (AvroDeserializer × ConfluentReader × Bool) :=
  match r.deserializer_cache.lookup schema_id with
  | some d => .ok (d, r, false)
  | none =>
      match AvroDeserializer.make r.header (r.schema_registry schema_id)
          r.allow_missing_fields with
      | .ok d =>
          .ok (d, { r with deserializer_cache :=
            (schema_id, d) :: r.deserializer_cache }, true)
      | .error e => .error e

/-- A sequence of per-message schema-id resolutions through one reader
instance: returns the events (schema id, whether a Plan was compiled) and
the final reader state.  A failed compilation caches nothing. -/
def runReads (r : ConfluentReader) : List Nat →
    List (Nat × Bool) × ConfluentReader
  | [] => ([], r)
  | sid :: rest =>
      match getOrCreateDeserializer r sid with
      | .ok (_, r1, compiled) =>
          let p := runReads r1 rest
          ((sid, compiled) :: p.1, p.2)
      | .error _ =>
          let p := runReads r rest
          ((sid, false) :: p.1, p.2)

/-- How many events of a run compiled a Plan for the given schema id. -/
def countCompiles (evs : List (Nat × Bool)) (sid : Nat) : Nat :=
  (evs.filter (fun e => e.1 == sid && e.2)).length

/-- Helper: the compile count of a run is zero when the id is already
cached and at most one otherwise. -/
theorem countCompiles_le (sid : Nat) :
    ∀ (ids : List Nat) (r : ConfluentReader),
      countCompiles (runReads r ids).1 sid ≤
        (if (r.deserializer_cache.lookup sid).isSome then 0 else 1) := by
  intro ids
  induction ids with
  | nil =>
      intro r
      simp [runReads, countCompiles]
  | cons sid1 rest ih =>
      intro r
      rw [runReads]
      cases hget : getOrCreateDeserializer r sid1 with
      | error e =>
          dsimp only
          rw [countCompiles, List.filter_cons]
          have hcond : ((sid1, false).1 == sid && (sid1, false).2) = false := by
            simp
          rw [hcond, if_neg Bool.false_ne_true]
          exact ih r
      | ok t =>
          obtain ⟨d, r1, compiled⟩ := t
          dsimp only
          rw [countCompiles, List.filter_cons]
          unfold getOrCreateDeserializer at hget
          cases hlook : r.deserializer_cache.lookup sid1 with
          | some d0 =>
              rw [hlook] at hget
              injection hget with hget
              injection hget with hd hget
              injection hget with hr hb
              subst hd
              subst hr
              subst hb
              have hcond : ((sid1, false).1 == sid && (sid1, false).2) = false := by
                simp
              rw [hcond, if_neg Bool.false_ne_true]
              exact ih r
          | none =>
              rw [hlook] at hget
              cases hmk : AvroDeserializer.make r.header
                  (r.schema_registry sid1) r.allow_missing_fields with
              | error e =>
                  rw [hmk] at hget
                  exact Except.noConfusion hget
              | ok dnew =>
                  rw [hmk] at hget
                  injection hget with hget
                  injection hget with hd hget
                  injection hget with hr hb
                  subst hd
                  subst hr
                  subst hb
                  by_cases hsid : sid1 = sid
                  · subst hsid
                    have hcond : ((sid1, true).1 == sid1 && (sid1, true).2)
                        = true := by simp
                    rw [hcond, if_pos rfl, List.length_cons]
                    have hcached : (({ r with deserializer_cache :=
                        (sid1, dnew) :: r.deserializer_cache
                      } : ConfluentReader).deserializer_cache.lookup sid1).isSome
                        = true := by
                      simp [List.lookup]
                    have h1 := ih { r with deserializer_cache :=
                      (sid1, dnew) :: r.deserializer_cache }
                    rw [hcached, if_pos rfl, countCompiles] at h1
                    rw [hlook]
                    simp only [Option.isSome_none, Bool.false_eq_true, if_false]
                    omega
                  · have hcond : ((sid1, true).1 == sid && (sid1, true).2)
                        = false := by simp [hsid]
                    rw [hcond, if_neg Bool.false_ne_true]
                    have hbeq : (sid == sid1) = false := by
                      simp only [beq_eq_false_iff_ne, ne_eq]
                      intro heq
                      exact hsid heq.symm
                    have hlooksame : (({ r with deserializer_cache :=
                        (sid1, dnew) :: r.deserializer_cache
                      } : ConfluentReader).deserializer_cache.lookup sid) =
                        r.deserializer_cache.lookup sid := by
                      simp [List.lookup, hbeq]
                    have h1 := ih { r with deserializer_cache :=
                      (sid1, dnew) :: r.deserializer_cache }
                    rw [hlooksame] at h1
                    exact h1

end Avro

namespace Avro

/-- C8: the per-reader-instance deserializer cache memoizes Plan
compilation per schema id: (i) after any successful call for an id, a
repeat call for the same id returns the same cached Plan without
compiling and without changing the reader; (ii) over any sequence of
resolutions through one reader instance, a Plan is compiled at most once
per id; (iii) the cache is instance-owned, not shared: a freshly
constructed reader (empty cache) never answers from a cache, whatever any
other instance did before. -/
theorem getOrCreateDeserializer_memoized
    (r : ConfluentReader) (sid : Nat) (ids : List Nat) :
    (∀ d r1 b, getOrCreateDeserializer r sid = .ok (d, r1, b) →
        getOrCreateDeserializer r1 sid = .ok (d, r1, false))
    ∧ countCompiles (runReads r ids).1 sid ≤ 1
    ∧ (∀ (reg : Nat → SchemaNode) (hdr : List ColumnSpec) (amf : Bool)
        (d : AvroDeserializer) (r1 : ConfluentReader),
        getOrCreateDeserializer ⟨reg, hdr, amf, []⟩ sid ≠ .ok (d, r1, false)) := by
  refine ⟨?_, ?_, ?_⟩
  · intro d r1 b hget
    unfold getOrCreateDeserializer at hget
    cases hlook : r.deserializer_cache.lookup sid with
    | some d0 =>
        rw [hlook] at hget
        injection hget with hget
        injection hget with hd hget
        injection hget with hr hb
        subst hd
        subst hr
        unfold getOrCreateDeserializer
        rw [hlook]
    | none =>
        rw [hlook] at hget
        cases hmk : AvroDeserializer.make r.header (r.schema_registry sid)
            r.allow_missing_fields with
        | error e =>
            rw [hmk] at hget
            exact Except.noConfusion hget
        | ok dnew =>
            rw [hmk] at hget
            injection hget with hget
            injection hget with hd hget
            injection hget with hr hb
            subst hd
            subst hr
            unfold getOrCreateDeserializer
            have hcache : (({ r with deserializer_cache :=
                (sid, dnew) :: r.deserializer_cache
              } : ConfluentReader).deserializer_cache.lookup sid) = some dnew := by
              simp [List.lookup]
            rw [hcache]
  · have h := countCompiles_le sid ids r
    cases hs : (r.deserializer_cache.lookup sid).isSome with
    | true => rw [hs, if_pos rfl] at h; omega
    | false =>
        rw [hs] at h
        rw [if_neg Bool.false_ne_true] at h
        exact h
  · intro reg hdr amf d r1 hget
    unfold getOrCreateDeserializer at hget
    simp only [List.lookup] at hget
    cases hmk : AvroDeserializer.make hdr (reg sid) amf with
    | error e =>
        rw [hmk] at hget
        exact Except.noConfusion hget
    | ok dnew =>
        rw [hmk] at hget
        injection hget with hget
        injection hget with hd hget
        injection hget with hr hb
        exact Bool.noConfusion hb

/-- Concrete fixtures for the C8 witness: a registry answering every id
with an empty record schema, an empty target header, and the Plan this
compiles to. -/
def regEmptyRecord : Nat → SchemaNode := fun _ => .record "r" []

/-- A fresh reader instance over `regEmptyRecord` with an empty cache. -/
def confluentReader0 : ConfluentReader := ⟨regEmptyRecord, [], true, []⟩

/-- The Plan compiled from the empty record schema over an empty header. -/
def emptyPlan : AvroDeserializer := ⟨[], Action.record []⟩

/-- `confluentReader0` after resolving schema id 7 once. -/
def confluentReader1 : ConfluentReader :=
  ⟨regEmptyRecord, [], true, [(7, emptyPlan)]⟩

/-- Witness for C8: after the fresh reader compiles id 7, the repeat call
returns the cached Plan without compiling; a run `[7, 7]` compiles at most
once; and the fresh (empty-cache) instance never answers from a cache. -/
theorem getOrCreateDeserializer_memoized_witness :
    getOrCreateDeserializer confluentReader1 7 =
      .ok (emptyPlan, confluentReader1, false)
    ∧ countCompiles (runReads confluentReader0 [7, 7]).1 7 ≤ 1
    ∧ getOrCreateDeserializer confluentReader0 7 ≠
      .ok (emptyPlan, confluentReader1, false) := by
  have hget : getOrCreateDeserializer confluentReader0 7 =
      .ok (emptyPlan, confluentReader1, true) := by
    have hmk : AvroDeserializer.make ([] : List ColumnSpec)
        (.record "r" []) true = .ok emptyPlan := by
      simp [AvroDeserializer.make, createAction, createActionFields, emptyPlan]
    simp [getOrCreateDeserializer, confluentReader0, confluentReader1,
      regEmptyRecord, List.lookup, hmk]
  have h := getOrCreateDeserializer_memoized confluentReader0 7 [7, 7]
  refine ⟨h.1 emptyPlan confluentReader1 true hget, h.2.1, ?_⟩
  exact h.2.2 regEmptyRecord [] true emptyPlan confluentReader1

end Avro
